import Mathlib

/-!
Verification of the RelogicChain proof-of-work ledger (src/main.rs).

The development shallowly embeds the Rust source: machine integers become
Nat with explicit wrapping (`% 2 ^ 64`, `% 2 ^ 32`) where the source relies
on it, fallible operations (panics such as unwrap, overflow in checked
builds, division by zero) become Option, and Rust String values become Lean
String with byte-level operations modelled on the character list.  SHA-256
is implemented concretely, following the FIPS 180-4 algorithm the `sha2`
crate computes, over the UTF-8 bytes of the input string, rendered as
lowercase hex — exactly what `format!("{:x}", hasher.finalize())` produces.

The parallel nonce search (`rayon`'s `find_any` over `0..u64::MAX`) is
determinized: probes are modelled in increasing nonce order, the shared
cancellation flag is modelled as the observation function
`running : Nat → Bool` giving the value the probe for a given nonce reads,
plus the final load the function performs after the search.  The flag in
the source is only ever stored `false` (the Ctrl-C handler), so a run of
the real program satisfies the monotonicity hypothesis used below: if the
final load reads `true`, every probe read `true`.
-/

/- ### SHA-256 over byte lists (FIPS 180-4), as the `sha2` crate computes it -/

/-- Truncation to a 32-bit word. -/
def w32 (n : Nat) : Nat := n % 4294967296

/-- Rotate a 32-bit word right by n bit positions. -/
def rotr32 (n x : Nat) : Nat := w32 ((x >>> n) ||| (x <<< (32 - n)))

/-- Small sigma-0 message schedule function. -/
def ssig0 (x : Nat) : Nat := (rotr32 7 x) ^^^ (rotr32 18 x) ^^^ (x >>> 3)

/-- Small sigma-1 message schedule function. -/
def ssig1 (x : Nat) : Nat := (rotr32 17 x) ^^^ (rotr32 19 x) ^^^ (x >>> 10)

/-- Big sigma-0 round function. -/
def bsig0 (x : Nat) : Nat := (rotr32 2 x) ^^^ (rotr32 13 x) ^^^ (rotr32 22 x)

/-- Big sigma-1 round function. -/
def bsig1 (x : Nat) : Nat := (rotr32 6 x) ^^^ (rotr32 11 x) ^^^ (rotr32 25 x)

/-- Choice function: bits of y where x is set, of z where x is clear. -/
def chF (x y z : Nat) : Nat := (x &&& y) ^^^ ((x ^^^ 4294967295) &&& z)

/-- Majority function. -/
def majF (x y z : Nat) : Nat := (x &&& y) ^^^ (x &&& z) ^^^ (y &&& z)

/-- The 64 SHA-256 round constants (FIPS 180-4 section 4.2.2), written in
decimal: the fractional parts of the cube roots of the first 64 primes. -/
def shaK : List Nat :=
  [1116352408, 1899447441, 3049323471, 3921009573, 961987163, 1508970993,
   2453635748, 2870763221, 3624381080, 310598401, 607225278, 1426881987,
   1925078388, 2162078206, 2614888103, 3248222580, 3835390401, 4022224774,
   264347078, 604807628, 770255983, 1249150122, 1555081692, 1996064986,
   2554220882, 2821834349, 2952996808, 3210313671, 3336571891, 3584528711,
   113926993, 338241895, 666307205, 773529912, 1294757372, 1396182291,
   1695183700, 1986661051, 2177026350, 2456956037, 2730485921, 2820302411,
   3259730800, 3345764771, 3516065817, 3600352804, 4094571909, 275423344,
   430227734, 506948616, 659060556, 883997877, 958139571, 1322822218,
   1537002063, 1747873779, 1955562222, 2024104815, 2227730452, 2361852424,
   2428436474, 2756734187, 3204031479, 3329325298]

/-- Working state of the compression function (eight 32-bit words). -/
structure SHAState where
  a : Nat
  b : Nat
  c : Nat
  d : Nat
  e : Nat
  f : Nat
  g : Nat
  h : Nat

/-- The eight initial hash words, in decimal (FIPS 180-4 section 5.3.3). -/
def shaH0 : SHAState :=
  ⟨1779033703, 3144134277, 1013904242, 2773480762, 1359893119, 2600822924, 528734635, 1541459225⟩

/-- One round of the SHA-256 compression function. -/
def shaRound (k w : Nat) (s : SHAState) : SHAState :=
  let t1 := w32 (s.h + bsig1 s.e + chF s.e s.f s.g + k + w)
  let t2 := w32 (bsig0 s.a + majF s.a s.b s.c)
  ⟨w32 (t1 + t2), s.a, s.b, s.c, w32 (s.d + t1), s.e, s.f, s.g⟩

/-- Extend the 16 words of a block to the 64-entry message schedule. -/
def extendSchedule (ws : List Nat) : Array Nat :=
  (List.range 48).foldl
    (fun w _t =>
      let i := w.size
      w.push (w32 (ssig1 (w.getD (i - 2) 0) + w.getD (i - 7) 0 +
                   ssig0 (w.getD (i - 15) 0) + w.getD (i - 16) 0)))
    (List.toArray ws)

/-- Process one 16-word block. -/
def compressBlock (h0 : SHAState) (ws : List Nat) : SHAState :=
  let w := extendSchedule ws
  let s := (List.range 64).foldl (fun s i => shaRound (shaK.getD i 0) (w.getD i 0) s) h0
  ⟨w32 (h0.a + s.a), w32 (h0.b + s.b), w32 (h0.c + s.c), w32 (h0.d + s.d),
   w32 (h0.e + s.e), w32 (h0.f + s.f), w32 (h0.g + s.g), w32 (h0.h + s.h)⟩

/-- UTF-8 encoding of a single code point, as a list of byte values. -/
def utf8Bytes (c : Nat) : List Nat :=
  if c < 128 then [c]
  else if c < 2048 then [192 + c / 64, 128 + c % 64]
  else if c < 65536 then [224 + c / 4096, 128 + (c / 64) % 64, 128 + c % 64]
  else [240 + c / 262144, 128 + (c / 4096) % 64, 128 + (c / 64) % 64, 128 + c % 64]

/-- The UTF-8 bytes of a string (Rust's `str::as_bytes`). -/
def strBytes (s : String) : List Nat := (s.data.map (fun c => utf8Bytes c.toNat)).flatten

/-- The 8-byte big-endian encoding of a length in bits. -/
def beBytes8 (n : Nat) : List Nat :=
  [n / 2 ^ 56 % 256, n / 2 ^ 48 % 256, n / 2 ^ 40 % 256, n / 2 ^ 32 % 256,
   n / 2 ^ 24 % 256, n / 2 ^ 16 % 256, n / 2 ^ 8 % 256, n % 256]

/-- SHA-256 padding: append 0x80, zeros to 56 mod 64, then bit length. -/
def padBytes (m : List Nat) : List Nat :=
  m ++ 128 :: List.replicate ((119 - m.length % 64) % 64) 0 ++ beBytes8 (8 * m.length)

/-- Group bytes into big-endian 32-bit words. -/
def bytesToWords : List Nat → List Nat
  | b0 :: b1 :: b2 :: b3 :: rest =>
      (b0 * 16777216 + b1 * 65536 + b2 * 256 + b3) :: bytesToWords rest
  | _ => []

/-- Split a word list into 16-word blocks. -/
def chunks16 (l : List Nat) : List (List Nat) :=
  if h : l.isEmpty then [] else l.take 16 :: chunks16 (l.drop 16)
termination_by l.length
decreasing_by
  simp only [List.isEmpty_iff] at h
  cases l with
  | nil => exact absurd rfl h
  | cons x xs => simp only [List.length_drop, List.length_cons]; omega

/-- One hex digit, lowercase. -/
def hexDigit (n : Nat) : Char := if n < 10 then Char.ofNat (48 + n) else Char.ofNat (87 + n)

/-- A 32-bit word as 8 lowercase hex characters. -/
def word32hex (n : Nat) : List Char := (List.range 8).map (fun i => hexDigit (n / 16 ^ (7 - i) % 16))

/-- SHA-256 of a string, rendered as 64 lowercase hex characters — the value of
`format!("{:x}", Sha256::digest(s.as_bytes()))`. -/
def sha256hex (s : String) : String :=
  let st := (chunks16 (bytesToWords (padBytes (strBytes s)))).foldl compressBlock shaH0
  String.mk (word32hex st.a ++ word32hex st.b ++ word32hex st.c ++ word32hex st.d ++
             word32hex st.e ++ word32hex st.f ++ word32hex st.g ++ word32hex st.h)

/- ### String helpers used by the source -/

/-- The string of `d` zero characters: `"0".repeat(d)`. -/
def zeroString (d : Nat) : String := String.mk (List.replicate d '0')

/-- Rust's `str::starts_with` on our modelled strings: the prefix check on the
character list (the strings involved are ASCII hex, where characters and bytes
coincide). -/
def starts_with (s p : String) : Bool := p.data.isPrefixOf s.data

/- ### Constants (src/main.rs lines 12-16) -/

/-- Initial mining difficulty. -/
def INITIAL_DIFFICULTY : Nat := 15

/-- Target seconds per block. -/
def BLOCK_TIME_SECONDS : Nat := 10

/-- Number of blocks between difficulty retargets. -/
def DIFFICULTY_ADJUSTMENT_INTERVAL : Nat := 10

/-- Initial block reward. -/
def INITIAL_REWARD : Nat := 50

/-- Number of blocks between reward halvings. -/
def HALVING_INTERVAL : Nat := 20

/- ### Data model -/

/-- The error taxonomy of the mining engine. -/
inductive MiningError where
  | Interrupted
  | NoValidNonceFound

/-- A transaction record.  Rust's `from` is a Lean keyword, so the two address
fields are `from_addr` and `to_addr`. -/
structure Transaction where
  id : String
  from_addr : String
  to_addr : String
  amount : Nat
  timestamp : Nat
  signature : String

/-- Hash of a transaction: the digest of `from‖to‖amount‖timestamp‖signature`
with the numbers printed in decimal, as `format!("{}{}{}{}{}", ...)` builds it. -/
def Transaction.calculate_hash (t : Transaction) : String :=
  sha256hex (t.from_addr ++ t.to_addr ++ Nat.repr t.amount ++ Nat.repr t.timestamp ++ t.signature)

/-- Transaction construction; the wall clock is passed in as `now` (external
interface in the spec), where the source reads `Utc::now().timestamp_millis()`. -/
def Transaction.new (from_addr to_addr : String) (amount : Nat) (signature : String)
    (now : Nat) : Transaction :=
  let t : Transaction := ⟨"", from_addr, to_addr, amount, now, signature⟩
  { t with id := t.calculate_hash }

/-- The coinbase transaction paying a mining reward. -/
def Transaction.coinbase (to_addr : String) (amount : Nat) (now : Nat) : Transaction :=
  Transaction.new "coinbase" to_addr amount "" now

/-- A block. -/
structure Block where
  index : Nat
  timestamp : Nat
  previous_hash : String
  hash : String
  merkle_root : String
  nonce : Nat
  difficulty : Nat
  transactions : List Transaction

/-- The header hash: digest of the concatenation of
`index‖timestamp‖previous_hash‖merkle_root‖nonce‖difficulty`, numbers in
decimal.  The `hash` field and the transaction list are not inputs. -/
def Block.calculate_hash (b : Block) : String :=
  sha256hex (Nat.repr b.index ++ Nat.repr b.timestamp ++ b.previous_hash ++ b.merkle_root ++
             Nat.repr b.nonce ++ Nat.repr b.difficulty)

/- ### Merkle tree (MerkleTree::build_tree) -/

/-- The pair digest of one adjacent pair: `sha256` of `left` then `right`
(updating the hasher twice concatenates the byte streams). -/
def pairHash (l r : String) : String := sha256hex (l ++ r)

/-- One level of the `for i in (0..len).step_by(2)` pairing loop, on an
even-length level. -/
def merkleLevel : List String → List String
  | l :: r :: rest => pairHash l r :: merkleLevel rest
  | _ => []

/-- The odd-length padding step: `current_level.push(last.clone())`. -/
def padEven (level : List String) : List String :=
  if level.length % 2 = 1 then level ++ [level.getLastD ""] else level

/-- Length of one pairing level. -/
theorem merkleLevel_length : ∀ l : List String, (merkleLevel l).length = l.length / 2
  | [] => by simp [merkleLevel]
  | [_] => by simp [merkleLevel]
  | _ :: _ :: rest => by
      simp only [merkleLevel, List.length_cons, merkleLevel_length rest]; omega

/-- Length after the padding step. -/
theorem padEven_length (l : List String) : (padEven l).length = l.length + l.length % 2 := by
  unfold padEven
  by_cases h : l.length % 2 = 1
  · simp [h]
  · simp [h]; omega

/-- The `while current_level.len() > 1` loop of `build_tree`. -/
def build_tree_loop (current_level : List String) : String :=
  if 1 < current_level.length then build_tree_loop (merkleLevel (padEven current_level))
  else current_level.headD ""
termination_by current_level.length
decreasing_by simp only [merkleLevel_length, padEven_length]; omega

/-- `MerkleTree::build_tree` over the list of leaf digests (the `leaves` field
collected by `MerkleTree::new` from the transaction ids). -/
def build_tree (leaves : List String) : String :=
  if leaves.isEmpty then zeroString 64
  else if leaves.length = 1 then leaves.headD ""
  else build_tree_loop leaves

/- ### Merkle reference definition (from the spec's words, for claim C5) -/

/-- One level as the spec words it: pair adjacent elements left-to-right,
duplicating the last element of an odd-length level before pairing. -/
def specPairLevel : List String → List String
  | [] => []
  | [x] => [pairHash x x]
  | x :: y :: rest => pairHash x y :: specPairLevel rest

/-- Length of one spec level. -/
theorem specPairLevel_length : ∀ l : List String, (specPairLevel l).length = (l.length + 1) / 2
  | [] => by simp [specPairLevel]
  | [_] => by simp [specPairLevel]
  | _ :: _ :: rest => by
      simp only [specPairLevel, List.length_cons, specPairLevel_length rest]; omega

/-- The spec's "repeat until one element remains" iteration. -/
def specMerkleLoop (level : List String) : String :=
  if 1 < level.length then specMerkleLoop (specPairLevel level)
  else level.headD ""
termination_by level.length
decreasing_by simp only [specPairLevel_length]; omega

/-- Modelled from the spec: zero leaves give the all-zero digest, one leaf is
returned verbatim, otherwise levels are folded until one digest remains. -/
def merkle_reference : List String → String
  | [] => zeroString 64
  | [x] => x
  | x :: y :: rest => specMerkleLoop (x :: y :: rest)

/-- The default argument of `getLastD` is irrelevant on a non-empty list. -/
theorem getLastD_ne_nil (l : List String) (x d : String) :
    l ≠ [] → l.getLastD x = l.getLastD d := by
  cases l with
  | nil => intro hc; exact absurd rfl hc
  | cons a as => intro _; rw [List.getLastD_cons, List.getLastD_cons]

/-- Padding commutes with peeling one pair off the front. -/
theorem padEven_cons_cons (x y : String) (rest : List String) :
    padEven (x :: y :: rest) = x :: y :: padEven rest := by
  cases rest with
  | nil => simp [padEven]
  | cons r rs =>
    unfold padEven
    have hm : (x :: y :: r :: rs).length % 2 = (r :: rs).length % 2 := by
      simp only [List.length_cons]; omega
    rw [hm]
    by_cases hp : (r :: rs).length % 2 = 1
    · rw [if_pos hp, if_pos hp]
      have h1 : (x :: y :: r :: rs).getLastD "" = (r :: rs).getLastD "" := by
        rw [List.getLastD_cons, List.getLastD_cons]
        exact getLastD_ne_nil (r :: rs) y "" (by simp)
      rw [h1]; rfl
    · rw [if_neg hp, if_neg hp]

/-- The spec's fused pad-and-pair level equals the source's pad-then-pair. -/
theorem specPairLevel_eq : ∀ l : List String, specPairLevel l = merkleLevel (padEven l)
  | [] => rfl
  | [x] => rfl
  | x :: y :: rest => by
      rw [padEven_cons_cons]
      show pairHash x y :: specPairLevel rest = pairHash x y :: merkleLevel (padEven rest)
      rw [specPairLevel_eq rest]

/-- The two level-folding loops coincide. -/
theorem build_tree_loop_eq_spec (l : List String) : build_tree_loop l = specMerkleLoop l := by
  by_cases h : 1 < l.length
  · rw [build_tree_loop, specMerkleLoop, if_pos h, if_pos h, ← specPairLevel_eq]
    exact build_tree_loop_eq_spec (specPairLevel l)
  · rw [build_tree_loop, specMerkleLoop, if_neg h, if_neg h]
termination_by l.length
decreasing_by simp only [specPairLevel_length]; omega

/- ### Reward schedule (Blockchain::get_reward) -/

/-- The reward schedule as the source computes it.  `block_index / HALVING_INTERVAL`
is cast with `as u32` (truncation mod `2 ^ 32`), and `2u64.pow(halvings)` is
evaluated in u64: for `halvings ≥ 64` the power overflows — a panic in checked
builds, and a wrap to `0` followed by a division-by-zero panic in release
builds — so the result is `none` exactly when the truncated exponent is 64 or
more.  `&self` is unused in the source, so the model drops it. -/
def get_reward (block_index : Nat) : Option Nat :=
  let halvings := (block_index / HALVING_INTERVAL) % 4294967296
  if halvings < 64 then some (INITIAL_REWARD / 2 ^ halvings) else none

/-- Modelled from the spec: `halvings = block_index / halving_interval` (floor),
`reward = initial_reward / 2^halvings` (floor), a total function of the index. -/
def get_reward_spec (block_index : Nat) : Nat :=
  INITIAL_REWARD / 2 ^ (block_index / HALVING_INTERVAL)

/- ### Difficulty retargeting (Blockchain::adjust_difficulty) -/

/-- Wrapping u64 subtraction (release-build semantics of `a - b`). -/
def wrapping_sub_u64 (a b : Nat) : Nat :=
  (a % 2 ^ 64 + 2 ^ 64 - b % 2 ^ 64) % 2 ^ 64

/-- Checked u64 subtraction (debug-build semantics of `a - b`): `none` models
the "attempt to subtract with overflow" panic. -/
def checked_sub_u64 (a b : Nat) : Option Nat :=
  if b ≤ a then some (a - b) else none

/-- Rounding the exact nonnegative fraction `num / den` (`den ≠ 0`) to the
nearest integer, halves away from zero: Rust's `f64::round` on the nonnegative
values the retarget computation produces, followed by the `as u32` cast of a
nonnegative value (the caller applies the u32 saturation).  The retarget
quantities are modelled as exact fractions rather than IEEE doubles. -/
def roundFrac (num den : Nat) : Nat := (2 * num + den) / (2 * den)

/-- The retargeting rule as the source computes it, with the f64 arithmetic
carried out exactly.  The `last().unwrap()` on an empty chain is `none`.
`time_taken` is the wrapping u64 difference of the tip timestamp and the
timestamp of `blocks[len - DIFFICULTY_ADJUSTMENT_INTERVAL]` (release-build
semantics; the checked-build panic is `adjust_difficulty_checked`).  The f64
comparison `time_ratio > 4.0` is `4 * time_taken < expected_time` on exact
values, except that a zero `time_taken` makes the IEEE quotient `+∞`, which
also takes that branch — hence the disjunction; `time_ratio < 0.25` is
`4 * expected_time < time_taken`.  `.round() as u32` saturates at `u32::MAX`,
and `.max(1)` gives the floor of 1. -/
def adjust_difficulty (chain : List Block) : Option Nat :=
  match chain.getLast? with
  | none => none
  | some current_block =>
    if chain.length < DIFFICULTY_ADJUSTMENT_INTERVAL then some current_block.difficulty
    else
      let last_adjustment_block :=
        chain.getD (chain.length - DIFFICULTY_ADJUSTMENT_INTERVAL) current_block
      let time_taken := wrapping_sub_u64 current_block.timestamp last_adjustment_block.timestamp
      let expected_time := DIFFICULTY_ADJUSTMENT_INTERVAL * BLOCK_TIME_SECONDS * 1000
      let new_difficulty :=
        if time_taken = 0 ∨ 4 * time_taken < expected_time then
          roundFrac (current_block.difficulty * 4) 1
        else if 4 * expected_time < time_taken then
          roundFrac current_block.difficulty 4
        else
          roundFrac (current_block.difficulty * expected_time) time_taken
      some (max (min new_difficulty 4294967295) 1)

/-- The retargeting rule under debug-build overflow checking: identical to
`adjust_difficulty` except that the u64 subtraction computing `time_taken`
panics (`none`) when the tip's timestamp is smaller than the reference
block's. -/
def adjust_difficulty_checked (chain : List Block) : Option Nat :=
  match chain.getLast? with
  | none => none
  | some current_block =>
    if chain.length < DIFFICULTY_ADJUSTMENT_INTERVAL then some current_block.difficulty
    else
      let last_adjustment_block :=
        chain.getD (chain.length - DIFFICULTY_ADJUSTMENT_INTERVAL) current_block
      match checked_sub_u64 current_block.timestamp last_adjustment_block.timestamp with
      | none => none
      | some time_taken =>
        let expected_time := DIFFICULTY_ADJUSTMENT_INTERVAL * BLOCK_TIME_SECONDS * 1000
        let new_difficulty :=
          if time_taken = 0 ∨ 4 * time_taken < expected_time then
            roundFrac (current_block.difficulty * 4) 1
          else if 4 * expected_time < time_taken then
            roundFrac current_block.difficulty 4
          else
            roundFrac (current_block.difficulty * expected_time) time_taken
        some (max (min new_difficulty 4294967295) 1)

/-- The smaller of two exact nonnegative fractions, preferring the second on a
tie. -/
def minFrac (a b : Nat × Nat) : Nat × Nat := if b.1 * a.2 ≤ a.1 * b.2 then b else a

/-- The larger of two exact nonnegative fractions, preferring the second on a
tie. -/
def maxFrac (a b : Nat × Nat) : Nat × Nat := if a.1 * b.2 ≤ b.1 * a.2 then b else a

/-- Modelled from claim C2's words verbatim: the reference block is "the block
I positions back from the tip", i.e. index `len - 1 - I`; the multiplier is the
quotient `expected / time_taken` clamped to the interval `[1/4, 4]` (the IEEE
quotient at `time_taken = 0` is `+∞`, clamping to 4); the product with the old
difficulty is rounded once to the nearest integer and floored at a minimum
of 1. -/
def adjust_difficulty_claimed (chain : List Block) : Option Nat :=
  match chain.getLast? with
  | none => none
  | some tip =>
    if chain.length < DIFFICULTY_ADJUSTMENT_INTERVAL then some tip.difficulty
    else
      let refBlock := chain.getD (chain.length - 1 - DIFFICULTY_ADJUSTMENT_INTERVAL) tip
      let time_taken := wrapping_sub_u64 tip.timestamp refBlock.timestamp
      let expected_time := DIFFICULTY_ADJUSTMENT_INTERVAL * BLOCK_TIME_SECONDS * 1000
      let multiplier :=
        if time_taken = 0 then (4, 1)
        else maxFrac (1, 4) (minFrac (4, 1) (expected_time, time_taken))
      some (max (min (roundFrac (tip.difficulty * multiplier.1) multiplier.2) 4294967295) 1)

/-- The amended claim C2: as `adjust_difficulty_claimed`, but the reference
block is `blocks[len - I]` — the block `I - 1` positions back from the tip. -/
def adjust_difficulty_amended (chain : List Block) : Option Nat :=
  match chain.getLast? with
  | none => none
  | some tip =>
    if chain.length < DIFFICULTY_ADJUSTMENT_INTERVAL then some tip.difficulty
    else
      let refBlock := chain.getD (chain.length - DIFFICULTY_ADJUSTMENT_INTERVAL) tip
      let time_taken := wrapping_sub_u64 tip.timestamp refBlock.timestamp
      let expected_time := DIFFICULTY_ADJUSTMENT_INTERVAL * BLOCK_TIME_SECONDS * 1000
      let multiplier :=
        if time_taken = 0 then (4, 1)
        else maxFrac (1, 4) (minFrac (4, 1) (expected_time, time_taken))
      some (max (min (roundFrac (tip.difficulty * multiplier.1) multiplier.2) 4294967295) 1)

/- ### Mining engine (mine_block) -/

/-- `u64::MAX`.  The source iterates `(0..u64::MAX).into_par_iter()`, a
half-open range: nonces `0` up to and excluding this value. -/
def u64MAX : Nat := 18446744073709551615

/-- Bounded first-satisfier search: the first `n` with `start ≤ n < start + fuel`
and `p n = true`. -/
def findFirstAux (p : Nat → Bool) : Nat → Nat → Option Nat
  | _, 0 => none
  | start, fuel + 1 => if p start then some start else findFirstAux p (start + 1) fuel

/-- The nonce search over the range `0..u64::MAX`.  Rayon's `find_any` returns
an arbitrary satisfying element; the model determinizes it to the least one —
no claim below depends on which satisfying nonce is picked. -/
def find_any (p : Nat → Bool) : Option Nat := findFirstAux p 0 u64MAX

/-- The probe predicate each worker evaluates for a nonce: first the load of the
cancellation flag (`return true` short-circuits the search when the flag was
stored false), then the header hash of a clone of the block with only the nonce
replaced, compared against the `"0".repeat(difficulty)` target.  The attempt
counter and progress bar are advisory telemetry and are not modelled. -/
def mineProbe (block : Block) (difficulty : Nat) (running : Nat → Bool) (nonce : Nat) : Bool :=
  if running nonce = false then true
  else starts_with (Block.calculate_hash { block with nonce := nonce }) (zeroString difficulty)

/-- `mine_block`.  The pair's first component is the block after the call (the
source mutates `&mut Block`); the second is `some e` for `Err(e)` and `none`
for `Ok`.  After the search the source reloads the flag: if it was stored false
the call fails with `Interrupted` no matter what the search returned; otherwise
a found nonce is written back and the final hash stored, and an exhausted range
is `NoValidNonceFound`. -/
def mine_block (block : Block) (difficulty : Nat) (running : Nat → Bool)
    (finalRunning : Bool) : Block × Option MiningError :=
  let found_nonce := find_any (mineProbe block difficulty running)
  if finalRunning = false then (block, some MiningError.Interrupted)
  else
    match found_nonce with
    | some nonce =>
        ({ block with nonce := nonce,
                      hash := Block.calculate_hash { block with nonce := nonce } }, none)
    | none => (block, some MiningError.NoValidNonceFound)

/- ### Chain state (Blockchain) -/

/-- The chain state. -/
structure Blockchain where
  blocks : List Block
  pending_transactions : List Transaction
  miner_address : String
  total_supply : Nat

/-- `Block::new`: timestamp from the wall clock (`now`), Merkle root computed
once from the transaction ids, empty hash, zero nonce. -/
def Block.new (index : Nat) (previous_hash : String) (difficulty : Nat)
    (transactions : List Transaction) (now : Nat) : Block :=
  { index := index, timestamp := now, previous_hash := previous_hash, hash := "",
    merkle_root := build_tree (transactions.map (fun t => t.id)),
    nonce := 0, difficulty := difficulty, transactions := transactions }

/-- `Blockchain::mine_and_add_block`.  The result is `none` for the panics the
model makes explicit (`get_reward` overflow, `unwrap` on an empty chain), and
otherwise the chain state after the call together with the mining outcome.
The pending transactions are drained *before* mining, so they are empty in the
post-state of both the success and the failure case; `blocks` and
`total_supply` are only touched after `mine_block` returns `Ok`. -/
def mine_and_add_block (chain : Blockchain) (now : Nat) (running : Nat → Bool)
    (finalRunning : Bool) : Option (Blockchain × Option MiningError) :=
  match get_reward chain.blocks.length with
  | none => none
  | some reward =>
    match adjust_difficulty chain.blocks with
    | none => none
    | some difficulty =>
      match chain.blocks.getLast? with
      | none => none
      | some last_block =>
        let transactions :=
          Transaction.coinbase chain.miner_address reward now :: chain.pending_transactions
        let new_block := Block.new chain.blocks.length last_block.hash difficulty transactions now
        let mined := mine_block new_block difficulty running finalRunning
        match mined.2 with
        | some e => some ({ chain with pending_transactions := [] }, some e)
        | none =>
          some ({ chain with pending_transactions := [],
                             total_supply := chain.total_supply + reward,
                             blocks := chain.blocks ++ [mined.1] }, none)

/-- The conserved quantity of claim C3: the total supply equals the sum of the
rewards of the block indices present in the chain. -/
def supply_invariant (c : Blockchain) : Prop :=
  c.total_supply = (c.blocks.map (fun b => (get_reward b.index).getD 0)).sum

/- ### Search lemmas -/

/-- An exhausted bounded search means the predicate fails on the whole window. -/
theorem findFirstAux_none_iff (p : Nat → Bool) :
    ∀ fuel start, findFirstAux p start fuel = none ↔ ∀ i, i < fuel → p (start + i) = false := by
  intro fuel
  induction fuel with
  | zero => intro start; simp [findFirstAux]
  | succ f ih =>
    intro start
    by_cases hp : p start = true
    · simp only [findFirstAux, hp, if_true]
      constructor
      · intro hc; exact absurd hc (by simp)
      · intro hall
        have h0 := hall 0 (Nat.succ_pos f)
        rw [Nat.add_zero] at h0
        rw [hp] at h0
        exact absurd h0 (by simp)
    · rw [Bool.not_eq_true] at hp
      simp only [findFirstAux, hp, Bool.false_eq_true, if_false]
      rw [ih (start + 1)]
      constructor
      · intro hall i hi
        cases i with
        | zero => rw [Nat.add_zero]; exact hp
        | succ j =>
          have := hall j (by omega)
          rw [← this]; ring_nf
      · intro hall i hi
        have := hall (i + 1) (by omega)
        rw [← this]; ring_nf

/-- A found element satisfies the predicate and lies in the window. -/
theorem findFirstAux_some (p : Nat → Bool) :
    ∀ fuel start n, findFirstAux p start fuel = some n →
      p n = true ∧ start ≤ n ∧ n < start + fuel := by
  intro fuel
  induction fuel with
  | zero => intro start n h; exact absurd h (by simp [findFirstAux])
  | succ f ih =>
    intro start n h
    by_cases hp : p start = true
    · simp only [findFirstAux, hp, if_true, Option.some.injEq] at h
      subst h
      exact ⟨hp, Nat.le_refl _, by omega⟩
    · rw [Bool.not_eq_true] at hp
      simp only [findFirstAux, hp, Bool.false_eq_true, if_false] at h
      obtain ⟨h1, h2, h3⟩ := ih (start + 1) n h
      exact ⟨h1, by omega, by omega⟩

/-- If the predicate holds at the window's start, the search returns it. -/
theorem findFirstAux_at_start (p : Nat → Bool) (start fuel : Nat) (hf : fuel ≠ 0)
    (hp : p start = true) : findFirstAux p start fuel = some start := by
  cases fuel with
  | zero => exact absurd rfl hf
  | succ f => simp [findFirstAux, hp]

/-- The nonce search is exhausted exactly when no nonce below `u64::MAX`
satisfies the probe. -/
theorem find_any_none_iff (p : Nat → Bool) :
    find_any p = none ↔ ∀ n, n < u64MAX → p n = false := by
  unfold find_any
  rw [findFirstAux_none_iff]
  constructor
  · intro h n hn
    have := h n hn
    rw [Nat.zero_add] at this
    exact this
  · intro h i hi
    rw [Nat.zero_add]
    exact h i hi

/-- Any found nonce satisfies the probe and is below `u64::MAX`. -/
theorem find_any_some (p : Nat → Bool) (n : Nat) (h : find_any p = some n) :
    p n = true ∧ n < u64MAX := by
  obtain ⟨h1, _, h3⟩ := findFirstAux_some p u64MAX 0 n h
  rw [Nat.zero_add] at h3
  exact ⟨h1, h3⟩

/-- If nonce 0 already satisfies the probe, the search returns it. -/
theorem find_any_zero (p : Nat → Bool) (hp : p 0 = true) : find_any p = some 0 :=
  findFirstAux_at_start p 0 u64MAX (by decide) hp

/- ### mine_block shape lemmas -/

/-- Case analysis on a `mine_block` run: an interrupted run and an exhausted
run return the untouched block, a successful run returns the block with the
found nonce written and the final hash stored. -/
theorem mine_block_result (b : Block) (d : Nat) (running : Nat → Bool) (fr : Bool) :
    (fr = false ∧ mine_block b d running fr = (b, some MiningError.Interrupted))
    ∨ (fr = true ∧ find_any (mineProbe b d running) = none ∧
        mine_block b d running fr = (b, some MiningError.NoValidNonceFound))
    ∨ (fr = true ∧ ∃ n, find_any (mineProbe b d running) = some n ∧
        mine_block b d running fr =
          ({ b with nonce := n,
                    hash := Block.calculate_hash { b with nonce := n } }, none)) := by
  cases fr with
  | false => exact Or.inl ⟨rfl, by simp [mine_block]⟩
  | true =>
    cases hf : find_any (mineProbe b d running) with
    | none => exact Or.inr (Or.inl ⟨rfl, rfl, by simp [mine_block, hf]⟩)
    | some n => exact Or.inr (Or.inr ⟨rfl, n, rfl, by simp [mine_block, hf]⟩)

/-- The mining search never touches any header field other than the nonce and
the stored hash. -/
theorem mine_block_fields (b : Block) (d : Nat) (running : Nat → Bool) (fr : Bool) :
    ((mine_block b d running fr).1).index = b.index
    ∧ ((mine_block b d running fr).1).timestamp = b.timestamp
    ∧ ((mine_block b d running fr).1).previous_hash = b.previous_hash
    ∧ ((mine_block b d running fr).1).merkle_root = b.merkle_root
    ∧ ((mine_block b d running fr).1).difficulty = b.difficulty
    ∧ ((mine_block b d running fr).1).transactions = b.transactions := by
  rcases mine_block_result b d running fr with ⟨_, h⟩ | ⟨_, _, h⟩ | ⟨_, n, _, h⟩ <;>
    rw [h] <;> exact ⟨rfl, rfl, rfl, rfl, rfl, rfl⟩

/-- A failed `mine_block` run returns the block argument unchanged. -/
theorem mine_block_err_frame (b : Block) (d : Nat) (running : Nat → Bool) (fr : Bool)
    (e : MiningError) (h : (mine_block b d running fr).2 = some e) :
    (mine_block b d running fr).1 = b := by
  rcases mine_block_result b d running fr with ⟨_, hr⟩ | ⟨_, _, hr⟩ | ⟨_, n, _, hr⟩ <;> rw [hr]
  rw [hr] at h
  exact absurd h (by simp)

/- ### Concrete test fixtures -/

/-- A block with the given index, timestamp and difficulty; the remaining
fields are immaterial to the retarget rule. -/
def mkBlock (i ts diff : Nat) : Block := ⟨i, ts, "", "", "", 0, diff, []⟩

/-- An 11-block chain with monotone timestamps: the last ten blocks span
100000 ms (exactly the expected time), while the span back to the genesis
block is 200000 ms.  The code and claim C2's wording pick different reference
blocks here and produce different difficulties. -/
def chainC2 : List Block :=
  [mkBlock 0 0 15, mkBlock 1 100000 15, mkBlock 2 100000 15, mkBlock 3 100000 15,
   mkBlock 4 100000 15, mkBlock 5 100000 15, mkBlock 6 100000 15, mkBlock 7 100000 15,
   mkBlock 8 100000 15, mkBlock 9 100000 15, mkBlock 10 200000 15]

/-- An 11-block chain with a non-monotone history: the reference block
`blocks[1]` carries timestamp 50000 while the tip carries 5000 — the shape the
repository's own retarget test constructs by rolling timestamps backwards. -/
def chainC9 : List Block :=
  [mkBlock 0 50000 15, mkBlock 1 50000 15, mkBlock 2 50000 15, mkBlock 3 50000 15,
   mkBlock 4 50000 15, mkBlock 5 50000 15, mkBlock 6 50000 15, mkBlock 7 50000 15,
   mkBlock 8 50000 15, mkBlock 9 50000 15, mkBlock 10 5000 15]

/-- A concrete candidate block used by the mining witnesses. -/
def blockW : Block := ⟨1, 0, "", "", "", 0, 0, []⟩

/-- A concrete one-block chain whose tip has difficulty 0, with one pending
transaction, used by the C3 witness. -/
def chainW : Blockchain :=
  ⟨[mkBlock 0 0 0], [⟨"tid", "alice", "bob", 7, 0, "sig"⟩], "miner", 50⟩

/- ### Claim C2: difficulty retargeting -/

/-- Claim C2, counterexample.  On the concrete chain `chainC2` (eleven blocks;
the last ten span exactly the expected 100000 ms, the span including the
genesis block is 200000 ms) the code keeps difficulty 15, while the claim's
reference block — "the block I positions back from the tip",
`blocks[len - 1 - I]` — gives quotient 1/2 and difficulty 8.  The code reads
`blocks[len - I]`, which is only `I - 1` positions back from the tip. -/
theorem c2_counterexample :
    adjust_difficulty chainC2 = some 15
    ∧ adjust_difficulty_claimed chainC2 = some 8
    ∧ adjust_difficulty chainC2 ≠ adjust_difficulty_claimed chainC2 :=
  ⟨by decide, by decide, by decide⟩

/-- Claim C2 (amended): for every chain shorter than the retarget interval the
last block's difficulty is returned unchanged; otherwise the new difficulty is
the old difficulty times the quotient `expected / time_taken` clamped to
`[1/4, 4]` (a zero `time_taken` clamps to 4, as the IEEE quotient `+∞` does),
rounded once to the nearest integer, saturated by the f64-to-u32 cast, and
floored at 1 — with the reference block at `blocks[len - I]`, i.e. `I - 1`
positions back from the tip, not `I` as the claim stated. -/
theorem c2_retarget (chain : List Block) :
    adjust_difficulty chain = adjust_difficulty_amended chain := by
  cases hl : chain.getLast? with
  | none => simp only [adjust_difficulty, adjust_difficulty_amended, hl]
  | some tip =>
    simp only [adjust_difficulty, adjust_difficulty_amended, hl]
    by_cases hlen : chain.length < DIFFICULTY_ADJUSTMENT_INTERVAL
    · rw [if_pos hlen, if_pos hlen]
    · rw [if_neg hlen, if_neg hlen]
      set t := wrapping_sub_u64 tip.timestamp
        (chain.getD (chain.length - DIFFICULTY_ADJUSTMENT_INTERVAL) tip).timestamp with ht
      set e := DIFFICULTY_ADJUSTMENT_INTERVAL * BLOCK_TIME_SECONDS * 1000 with he
      by_cases h0 : t = 0
      · rw [if_pos (Or.inl h0), if_pos h0]
      · rw [if_neg h0]
        by_cases h4 : 4 * t < e
        · rw [if_pos (Or.inr h4)]
          have hmin : minFrac (4, 1) (e, t) = (4, 1) := by
            unfold minFrac; rw [if_neg]; simp only; omega
          have hmax : maxFrac (1, 4) (4, 1) = (4, 1) := by unfold maxFrac; norm_num
          rw [hmin, hmax]
        · rw [if_neg (by tauto)]
          have hmin : minFrac (4, 1) (e, t) = (e, t) := by
            unfold minFrac; rw [if_pos]; simp only; omega
          rw [hmin]
          by_cases hq : 4 * e < t
          · rw [if_pos hq]
            have hmax : maxFrac (1, 4) (e, t) = (1, 4) := by
              unfold maxFrac; rw [if_neg]; simp only; omega
            rw [hmax, Nat.mul_one]
          · rw [if_neg hq]
            have hmax : maxFrac (1, 4) (e, t) = (e, t) := by
              unfold maxFrac; rw [if_pos]; simp only; omega
            rw [hmax]

/- ### Claim C4: reward schedule -/

/-- Claim C4: the schedule agrees with the spec at the tested points — 50 at
genesis, halved to 25 at index 20, quartered to 12 at index 40 — but the code
is not the total floor-division function the claim describes: at index 1280
the truncated exponent reaches 64, `2u64.pow` overflows and the code panics
(`none`) where the claim says the reward rounds down to 0; and at index
`20 * 2^32` the `as u32` cast wraps the exponent to 0, returning the full
initial reward 50 and violating monotonicity against `get_reward 20 = 25`. -/
theorem c4_reward_overflow :
    get_reward 0 = some INITIAL_REWARD
    ∧ get_reward HALVING_INTERVAL = some (INITIAL_REWARD / 2)
    ∧ get_reward (HALVING_INTERVAL * 2) = some (INITIAL_REWARD / 4)
    ∧ get_reward 1280 = none
    ∧ get_reward_spec 1280 = 0
    ∧ get_reward 85899345920 = some 50
    ∧ (85899345920 : Nat) = HALVING_INTERVAL * 2 ^ 32 :=
  ⟨by decide, by decide, by decide, by decide, by decide, by decide, by decide⟩

/- ### Claim C9: retarget totality on non-monotone timestamps -/

/-- Claim C9: on the chain `chainC9` — eleven blocks whose reference block
`blocks[1]` has timestamp 50000 while the tip has 5000, exactly the
rolled-back shape the repository's own `test_difficulty_adjustment_increase`
constructs — the checked u64 subtraction `current.timestamp -
last_adjustment_block.timestamp` overflows, so a debug build panics (`none`)
rather than returning a difficulty; a release build wraps the subtraction to
about `2^64` ms, drives the quotient below 1/4, and returns difficulty 4. -/
theorem c9_underflow_panic :
    adjust_difficulty_checked chainC9 = none
    ∧ adjust_difficulty chainC9 = some 4 :=
  ⟨by decide, by decide⟩

/- ### Claim C5: Merkle tree -/

/-- Claim C5: `build_tree` equals the reference definition — the all-zero
64-character digest for no leaves, the single leaf verbatim for one leaf, and
otherwise the left-to-right pairing fold with the last element of an odd level
duplicated, iterated until one digest remains. -/
theorem c5_build_tree (leaves : List String) : build_tree leaves = merkle_reference leaves := by
  match leaves with
  | [] => rfl
  | [x] => rfl
  | x :: y :: rest =>
    show build_tree_loop (x :: y :: rest) = specMerkleLoop (x :: y :: rest)
    exact build_tree_loop_eq_spec (x :: y :: rest)

/- ### Claim C1: a successful mine stores a recomputed, target-meeting hash -/

/-- Claim C1: whenever `mine_block` returns `Ok`, the stored `hash` field is
exactly the header digest recomputed from the block's own
(index, timestamp, previous_hash, merkle_root, nonce, difficulty), and that
digest has at least `d` leading zero hex characters.  The monotonicity
hypothesis `hmono` says the cancellation flag was never observed reset during
a run whose final load reads `true` — true of the source's flag, which is only
ever stored `false`. -/
theorem c1_mined_hash (b : Block) (d : Nat) (running : Nat → Bool) (fr : Bool)
    (blk : Block) (hmono : fr = true → ∀ n, running n = true)
    (h : mine_block b d running fr = (blk, none)) :
    blk.hash = Block.calculate_hash blk
    ∧ starts_with blk.hash (zeroString d) = true := by
  rcases mine_block_result b d running fr with ⟨hfr, hr⟩ | ⟨hfr, hfind, hr⟩ | ⟨hfr, n, hfind, hr⟩
  · rw [hr] at h
    exact absurd (congrArg Prod.snd h) (by simp)
  · rw [hr] at h
    exact absurd (congrArg Prod.snd h) (by simp)
  · rw [hr] at h
    have hb := congrArg Prod.fst h
    simp only at hb
    subst hb
    obtain ⟨hp, _⟩ := find_any_some (mineProbe b d running) n hfind
    rw [mineProbe, hmono hfr n] at hp
    simp only [Bool.true_eq_false, if_false] at hp
    exact ⟨rfl, hp⟩

/-- Witness for C1: a concrete run at difficulty 0 with the flag always up
returns `Ok`, and the theorem yields the recomputed-hash and target facts. -/
theorem c1_witness :
    ∃ blk, mine_block blockW 0 (fun _ => true) true = (blk, none)
      ∧ blk.hash = Block.calculate_hash blk
      ∧ starts_with blk.hash (zeroString 0) = true := by
  have h : mine_block blockW 0 (fun _ => true) true
      = ((mine_block blockW 0 (fun _ => true) true).1, none) := rfl
  exact ⟨(mine_block blockW 0 (fun _ => true) true).1, h,
    c1_mined_hash blockW 0 (fun _ => true) true _ (fun _ _ => rfl) h⟩

/- ### Claim C6: cancellation wins over a found nonce -/

/-- Claim C6: if the cancellation flag is observed reset at any probe, the call
returns `Err(Interrupted)` — even in runs where the search returned a nonce,
satisfying or not.  `hmono` is the flag's monotonicity (it is only ever stored
`false`): a final load of `true` means no probe ever observed `false`, so an
observed `false` forces the final load to be `false` and the source's
post-search check fails the call. -/
theorem c6_interrupt_wins (b : Block) (d : Nat) (running : Nat → Bool) (fr : Bool)
    (k : Nat) (hk : running k = false)
    (hmono : fr = true → ∀ n, running n = true) :
    (mine_block b d running fr).2 = some MiningError.Interrupted := by
  cases fr with
  | false => simp [mine_block]
  | true =>
    have := hmono rfl k
    rw [hk] at this
    exact absurd this (by simp)

/-- Witness for C6: a concrete interrupted run where the probe for nonce 0 did
satisfy the difficulty-0 target, and the call still fails with `Interrupted`. -/
theorem c6_witness :
    (mine_block blockW 0 (fun n => n == 0) false).2 = some MiningError.Interrupted
    ∧ mineProbe blockW 0 (fun n => n == 0) 0 = true :=
  ⟨c6_interrupt_wins blockW 0 (fun n => n == 0) false 1 rfl
      (fun hc => absurd hc (by simp)),
   rfl⟩

/- ### Claim C7: the searched nonce range -/

/-- Claim C7, counterexample: the search does not probe the full u64 domain.
`(0..u64::MAX)` is half-open, so the probe predicate is never evaluated at
`u64::MAX` itself: a predicate satisfied only by the u64 value `u64::MAX`
is satisfiable inside the 64-bit domain, yet `find_any` — the search
`mine_block` runs — exhausts without finding it. -/
theorem c7_counterexample :
    u64MAX < 2 ^ 64
    ∧ (fun nonce => nonce == u64MAX) u64MAX = true
    ∧ find_any (fun nonce => nonce == u64MAX) = none := by
  refine ⟨by decide, by simp, ?_⟩
  rw [find_any_none_iff]
  intro n hn
  show (n == u64MAX) = false
  rw [beq_eq_false_iff_ne]
  omega

/-- Claim C7 (amended): with no cancellation, `mine_block` returns
`Err(NoValidNonceFound)` exactly when no nonce in the half-open range
`0..u64::MAX` — all of the u64 domain except `u64::MAX` itself — produces a
header hash with at least `d` leading zeros; and at difficulty 0 the search
succeeds (every hash meets an empty target). -/
theorem c7_search_range (b : Block) (d : Nat) (running : Nat → Bool)
    (hrun : ∀ n, running n = true) :
    ((mine_block b d running true).2 = some MiningError.NoValidNonceFound ↔
      ∀ n, n < u64MAX →
        starts_with (Block.calculate_hash { b with nonce := n }) (zeroString d) = false)
    ∧ (mine_block b 0 running true).2 = none := by
  constructor
  · constructor
    · intro h n hn
      rcases mine_block_result b d running true with ⟨hfr, _⟩ | ⟨_, hfind, _⟩ | ⟨_, m, hfind, hr⟩
      · exact absurd hfr (by simp)
      · rw [find_any_none_iff] at hfind
        have := hfind n hn
        rw [mineProbe, hrun n] at this
        simpa using this
      · rw [hr] at h
        exact absurd h (by simp)
    · intro hall
      rcases mine_block_result b d running true with ⟨hfr, hr⟩ | ⟨_, _, hr⟩ | ⟨_, m, hfind, hr⟩
      · exact absurd hfr (by simp)
      · rw [hr]
      · obtain ⟨hp, hlt⟩ := find_any_some (mineProbe b d running) m hfind
        rw [mineProbe, hrun m] at hp
        simp only [Bool.true_eq_false, if_false] at hp
        rw [hall m hlt] at hp
        exact absurd hp (by simp)
  · have hfind : find_any (mineProbe b 0 running) = some 0 := by
      apply find_any_zero
      rw [mineProbe, hrun 0]
      rfl
    simp [mine_block, hfind]

/-- Witness for C7 (amended): at difficulty 0 a concrete uncancelled run
returns `Ok`. -/
theorem c7_witness : (mine_block blockW 0 (fun _ => true) true).2 = none :=
  (c7_search_range blockW 0 (fun _ => true) (fun _ => rfl)).2

/- ### Claim C8: the search mutates nothing but nonce and stored hash -/

/-- Claim C8: `mine_block` leaves index, timestamp, previous_hash, merkle_root,
difficulty and the transaction list exactly as they were — the nonce is the
only header field the search varies (with the final hash stored on success),
and the Merkle root in particular is never recomputed. -/
theorem c8_frame (b : Block) (d : Nat) (running : Nat → Bool) (fr : Bool) :
    ((mine_block b d running fr).1).index = b.index
    ∧ ((mine_block b d running fr).1).timestamp = b.timestamp
    ∧ ((mine_block b d running fr).1).previous_hash = b.previous_hash
    ∧ ((mine_block b d running fr).1).merkle_root = b.merkle_root
    ∧ ((mine_block b d running fr).1).difficulty = b.difficulty
    ∧ ((mine_block b d running fr).1).transactions = b.transactions :=
  mine_block_fields b d running fr

/- ### Claim C10: a failed mine leaves the block untouched -/

/-- Claim C10: whenever `mine_block` returns an error — `Interrupted` or
`NoValidNonceFound` — the block argument is bit-for-bit unchanged: the
arbitrary nonce a worker's short-circuited probe reported is never written
back, and the `hash` field keeps its prior (empty) value. -/
theorem c10_err_unchanged (b : Block) (d : Nat) (running : Nat → Bool) (fr : Bool)
    (e : MiningError) (h : (mine_block b d running fr).2 = some e) :
    (mine_block b d running fr).1 = b ∧ ((mine_block b d running fr).1).hash = b.hash := by
  have := mine_block_err_frame b d running fr e h
  exact ⟨this, by rw [this]⟩

/-- Witness for C10: a concrete interrupted run at difficulty 5 returns the
candidate block unchanged. -/
theorem c10_witness :
    (mine_block blockW 5 (fun _ => true) false).1 = blockW
    ∧ ((mine_block blockW 5 (fun _ => true) false).1).hash = blockW.hash :=
  c10_err_unchanged blockW 5 (fun _ => true) false MiningError.Interrupted rfl

/- ### Claim C3: failure leaves blocks and supply untouched; success pays one reward -/

/-- Claim C3: if `mine_and_add_block` completes with `Err` (`Interrupted` or
`NoValidNonceFound`), the `blocks` sequence and `total_supply` are exactly as
before the call (the drained pending transactions are the documented loss);
on `Ok` exactly one block is appended, its index is the old chain length, and
`total_supply` grows by exactly `get_reward` of that index — so the invariant
"total supply = sum of the rewards of the chain's block indices" is preserved
by every call. -/
theorem c3_supply_frame (chain chain' : Blockchain) (now : Nat) (running : Nat → Bool)
    (fr : Bool) (res : Option MiningError)
    (h : mine_and_add_block chain now running fr = some (chain', res)) :
    (∀ e, res = some e → chain'.blocks = chain.blocks ∧ chain'.total_supply = chain.total_supply)
    ∧ (res = none → ∃ b reward, chain'.blocks = chain.blocks ++ [b]
        ∧ b.index = chain.blocks.length
        ∧ get_reward b.index = some reward
        ∧ chain'.total_supply = chain.total_supply + reward)
    ∧ (supply_invariant chain → supply_invariant chain') := by
  unfold mine_and_add_block at h
  split at h
  · exact absurd h (by simp)
  rename_i reward hreward
  split at h
  · exact absurd h (by simp)
  rename_i difficulty hdiff
  split at h
  · exact absurd h (by simp)
  rename_i last_block hlast
  dsimp only at h
  split at h
  · rename_i e he
    simp only [Option.some.injEq, Prod.mk.injEq] at h
    obtain ⟨h1, h2⟩ := h
    subst h1
    subst h2
    refine ⟨fun e' _ => ⟨rfl, rfl⟩, fun hc => absurd hc (by simp), fun hinv => hinv⟩
  · rename_i hok
    simp only [Option.some.injEq, Prod.mk.injEq] at h
    obtain ⟨h1, h2⟩ := h
    subst h1
    subst h2
    have hidx : ((mine_block
        (Block.new chain.blocks.length last_block.hash difficulty
          (Transaction.coinbase chain.miner_address reward now :: chain.pending_transactions) now)
        difficulty running fr).1).index = chain.blocks.length :=
      (mine_block_fields _ _ _ _).1
    refine ⟨fun e he => absurd he (by simp), fun _ => ?_, fun hinv => ?_⟩
    · exact ⟨_, reward, rfl, hidx, by rw [hidx]; exact hreward, rfl⟩
    · unfold supply_invariant at hinv ⊢
      simp only [List.map_append, List.sum_append, List.map_cons, List.map_nil,
        List.sum_cons, List.sum_nil]
      rw [hidx, hreward]
      simp only [Option.getD_some]
      omega

/-- Witness for C3: on the concrete chain `chainW` an interrupted call drains
the pending pool but leaves `blocks` and `total_supply` exactly as they
were. -/
theorem c3_witness :
    mine_and_add_block chainW 0 (fun _ => true) false
      = some ({ chainW with pending_transactions := [] }, some MiningError.Interrupted)
    ∧ ({ chainW with pending_transactions := [] } : Blockchain).blocks = chainW.blocks
    ∧ ({ chainW with pending_transactions := [] } : Blockchain).total_supply
        = chainW.total_supply := by
  have h : mine_and_add_block chainW 0 (fun _ => true) false
      = some ({ chainW with pending_transactions := [] }, some MiningError.Interrupted) := rfl
  have hc := (c3_supply_frame chainW _ 0 (fun _ => true) false
      (some MiningError.Interrupted) h).1 MiningError.Interrupted rfl
  exact ⟨h, hc.1, hc.2⟩
